import Mathlib

/-!
# ProxySession: the event loop and the transfer pump

A shallow embedding of `libs/src/proxy/ProxySession.cpp`:
`QueueWrite`, `Transfer`, `RunOne` and the `while(!ec)` loop of `Run`.

* The operating system is a record `Sys σ` of the three calls the code makes
  (`epoll_wait`, `read`, `write`), each a function of an explicit world state `σ`.
  Every call returns the value the C call returns together with the value
  of `errno` after the call.
* The parser plugin is a record `IParser π` over an explicit parser state `π`.
  `Parse` returns its success flag and the slices it passed to `QueueWrite`,
  in call order.
* A slice is given by the bytes it views. Within one `Transfer` nothing writes to
  the memory behind a queued slice between `Parse` and the drain, so a queued slice
  still views the bytes it viewed when it was queued.
* Every function returns, besides its C++ result, the list of calls it issued
  (`Call`), so that what the destination observed can be stated.
* The two `while` loops of `Transfer` always terminate. The inner one is written with
  a bound on the number of writes, `slice.Size()`, which is never what stops it
  (`writeAll_total`, `writeAll_fuel_irrelevant`); the loop of `Run` need not terminate
  and is written with a bound on the number of events.
-/

namespace proxy

/-! ## Data model -/

abbrev Byte := Fin 256

/-- A `FileDesc` converted to the native handle it wraps. -/
abbrev Fd := Int

/-- Modelled from the spec: `RSlice` (its header is not among the sources), a read-only
view given by the bytes it currently covers. -/
structure RSlice where
  bytes : List Byte
deriving DecidableEq, Repr

/-- Modelled from the spec: `Size()`, the remaining byte count. -/
def RSlice.Size (s : RSlice) : Nat := s.bytes.length

/-- Modelled from the spec: `IsEmpty()` reports zero remaining length. -/
def RSlice.IsEmpty (s : RSlice) : Bool := s.bytes.length == 0

/-- Modelled from the spec: `Take(n)`, the first `n` bytes of the view
(clamped to the view when `n` exceeds its length). -/
def RSlice.Take (s : RSlice) (n : Nat) : RSlice := ⟨s.bytes.take n⟩

/-- Modelled from the spec: `Advance(n)` drops the first `n` bytes of the view
(clamped to the view when `n` exceeds its length). -/
def RSlice.Advance (s : RSlice) (n : Nat) : RSlice := ⟨s.bytes.drop n⟩

/-- Modelled from the spec: the write slice (its header is not among the sources), a
mutable view into the parser's input buffer, given by the buffer's bytes. -/
structure WSlice where
  bytes : List Byte
deriving DecidableEq, Repr

def WSlice.Size (s : WSlice) : Nat := s.bytes.length

/-- The buffer after `read` stored `data` at its front. -/
def WSlice.store (s : WSlice) (data : List Byte) : WSlice :=
  ⟨(data ++ s.bytes.drop data.length).take s.bytes.length⟩

def WSlice.ToRSlice (s : WSlice) : RSlice := ⟨s.bytes⟩

/-- The enumerators of `proxy::Error` that `ProxySession.cpp` uses. Their numeric
values are in `proxy/ErrorCodes.h`, which is not among the sources: they are a
parameter `codes : Error → Int` of the functions below. -/
inductive Error where
  | END_OF_FILE
  | EPOLL_SOCKET_ERR
deriving DecidableEq, Repr

inductive Category where
  | system
  | proxy
deriving DecidableEq, Repr

/-- The `std::error_code`: a value and the category it belongs to. -/
structure error_code where
  value : Int
  category : Category
deriving DecidableEq, Repr

/-- The `explicit operator bool` of `std::error_code`: `value() != 0`. -/
def error_code.isSet (ec : error_code) : Bool := ec.value != 0

/-- The `std::error_code(errno, std::system_category())`. -/
def system_error (errno : Int) : error_code := ⟨errno, Category.system⟩

/-- The conversion `ec = Error::X`. -/
def make_error_code (codes : Error → Int) (e : Error) : error_code :=
  ⟨codes e, Category.proxy⟩

/-- The `EPOLLIN` bit of `<sys/epoll.h>`. -/
def EPOLLIN : Nat := 1

structure epoll_event where
  events : Nat
  fd : Fd
deriving DecidableEq, Repr

/-- What `epoll_wait(epoll_fd, &event, 1, -1)` leaves behind. -/
structure WaitResult where
  num : Int
  errno : Int
  event : epoll_event
deriving DecidableEq, Repr

/-- What `read(src, inBuff, count)` leaves behind; `data` are the bytes stored at
the front of the buffer. -/
structure ReadResult where
  ret : Int
  errno : Int
  data : List Byte
deriving DecidableEq, Repr

/-- What `write(dest, slice, count)` leaves behind. -/
structure WriteResult where
  ret : Int
  errno : Int
deriving DecidableEq, Repr

/-- The system calls of the session, over a world state `σ`. -/
structure Sys (σ : Type) where
  epoll_wait : σ → Fd → WaitResult × σ
  read : σ → Fd → Nat → ReadResult × σ
  write : σ → Fd → RSlice → WriteResult × σ

/-- What one `Parse` call does: the flag it returns, the slices it handed to
`QueueWrite` (in call order) and the parser's next state. -/
structure ParseResult (π : Type) where
  SUCCESS : Bool
  queued : List RSlice
  parser : π

/-- The parser plugin (`IParser`), over parser states `π`. -/
structure IParser (π : Type) where
  GetWriteSlice : π → WSlice × π
  Parse : π → RSlice → ParseResult π

/-- The calls a session issues, as they are observed from outside. -/
inductive Call where
  | epoll_wait (num : Int)
  | read (fd : Fd) (count : Nat) (ret : Int)
  | parse (readyBytes : RSlice) (SUCCESS : Bool)
  | write (fd : Fd) (offered : RSlice) (ret : Int)
deriving DecidableEq, Repr

def Call.isWrite : Call → Bool
  | Call.write _ _ _ => true
  | _ => false

/-- The bytes handle `fd` accepted: of every write on `fd` that returned `k > 0`,
the first `k` bytes offered. -/
def delivered (fd : Fd) : List Call → List Byte
  | [] => []
  | Call.write d offered ret :: cs =>
      if d = fd ∧ 0 < ret then (offered.Take ret.toNat).bytes ++ delivered fd cs
      else delivered fd cs
  | _ :: cs => delivered fd cs

/-- The number of `write` calls issued. -/
def writeCount (cs : List Call) : Nat := (cs.filter Call.isWrite).length

/-- The number of bytes in a queue of slices. -/
def queuedBytes (q : List RSlice) : Nat := (q.map RSlice.Size).sum

/-- The bytes of a queue of slices, front to back. -/
def queueContent (q : List RSlice) : List Byte := (q.map RSlice.bytes).flatten

/-- The members of `ProxySession` the loop uses. -/
structure ProxySession (π : Type) where
  m_server_fd : Fd
  m_s2cParser : π
  m_c2sParser : π
  m_output_vec : List RSlice

/-! ## Operations -/

/-- The `ProxySession::QueueWrite`: `m_output_vec.push_back(output)`. -/
def QueueWrite (m_output_vec : List RSlice) (output : RSlice) : List RSlice :=
  m_output_vec ++ [output]

/-- The state of the inner `while(!slice.IsEmpty())` loop when it is left. -/
structure WriteLoop (σ : Type) where
  /-- The value of `errno` when the loop was left through `return false`. -/
  failed : Option Int
  sys : σ
  calls : List Call

/-- The inner loop of `Transfer` (lines 144-154), run for at most `fuel` writes;
`none` when `fuel` writes did not empty the slice. `Transfer` runs it with
`slice.Size()` as fuel, which always suffices (`writeAll_total`). -/
def writeAll {σ : Type} (os : Sys σ) (dest : Fd) : Nat → σ → RSlice → Option (WriteLoop σ)
  | 0, w, slice => if slice.IsEmpty then some ⟨none, w, []⟩ else none
  | fuel + 1, w, slice =>
      if slice.IsEmpty then some ⟨none, w, []⟩
      else
        let wr := os.write w dest slice
        let numWritten := wr.1.ret
        if numWritten ≤ 0 then
          some ⟨some wr.1.errno, wr.2, [Call.write dest slice numWritten]⟩
        else
          match writeAll os dest fuel wr.2 (slice.Advance numWritten.toNat) with
          | none => none
          | some l => some ⟨l.failed, l.sys, Call.write dest slice numWritten :: l.calls⟩

/-- The state of the outer `while(!m_output_vec.empty())` loop when it is left. -/
structure DrainResult (σ : Type) where
  failed : Option Int
  m_output_vec : List RSlice
  sys : σ
  calls : List Call

/-- The outer loop of `Transfer` (lines 139-155): take the front slice, pop it,
write it out; a failed write leaves the loop with the rest still queued. -/
def drain {σ : Type} (os : Sys σ) (dest : Fd) : σ → List RSlice → Option (DrainResult σ)
  | w, [] => some ⟨none, [], w, []⟩
  | w, slice :: rest =>
      match writeAll os dest slice.Size w slice with
      | none => none
      | some l =>
          match l.failed with
          | some errno => some ⟨some errno, rest, l.sys, l.calls⟩
          | none =>
              match drain os dest l.sys rest with
              | none => none
              | some d => some ⟨d.failed, d.m_output_vec, d.sys, l.calls ++ d.calls⟩

/-- What `Transfer` leaves behind: the value it returns, `ec`, the parser it was
given, the output queue, the world and the calls it issued. -/
structure TransferResult (σ π : Type) where
  ret : Bool
  ec : error_code
  parser : π
  m_output_vec : List RSlice
  sys : σ
  calls : List Call

/-- The local `inBuff` of `Transfer`: `parser.GetWriteSlice()`. -/
def Transfer_inBuff {π : Type} (P : IParser π) (parser : π) : WSlice :=
  (P.GetWriteSlice parser).1

/-- The call `read(src, inBuff, inBuff.Size())` of `Transfer`. -/
def Transfer_read {σ π : Type} (os : Sys σ) (P : IParser π) (src : Fd) (parser : π) (w : σ) :
    ReadResult × σ :=
  os.read w src (Transfer_inBuff P parser).Size

/-- The local `readyBytes` of `Transfer`: `inBuff.ToRSlice().Take(numRead)`, the buffer
being the one `read` stored into. -/
def Transfer_readyBytes {σ π : Type} (os : Sys σ) (P : IParser π) (src : Fd) (parser : π)
    (w : σ) : RSlice :=
  (((Transfer_inBuff P parser).store (Transfer_read os P src parser w).1.data).ToRSlice).Take
    (Transfer_read os P src parser w).1.ret.toNat

/-- The call `parser.Parse(readyBytes)` of `Transfer`. -/
def Transfer_Parse {σ π : Type} (os : Sys σ) (P : IParser π) (src : Fd) (parser : π) (w : σ) :
    ParseResult π :=
  P.Parse (P.GetWriteSlice parser).2 (Transfer_readyBytes os P src parser w)

/-- The `ProxySession::Transfer(src, dest, parser, ec)`. The result is `none` only if
the inner loop were stopped by its bound, which does not happen (`Transfer_total`). -/
def Transfer {σ π : Type} (os : Sys σ) (P : IParser π) (codes : Error → Int)
    (this : ProxySession π) (src dest : Fd) (parser : π) (ec : error_code) (w : σ) :
    Option (TransferResult σ π) :=
  let inBuff := Transfer_inBuff P parser
  let rd := Transfer_read os P src parser w
  let numRead := rd.1.ret
  let rcall := Call.read src inBuff.Size numRead
  if numRead < 0 then
    some ⟨false, system_error rd.1.errno, (P.GetWriteSlice parser).2, this.m_output_vec, rd.2,
      [rcall]⟩
  else if numRead = 0 then
    some ⟨false, make_error_code codes Error.END_OF_FILE, (P.GetWriteSlice parser).2,
      this.m_output_vec, rd.2, [rcall]⟩
  else
    let readyBytes := Transfer_readyBytes os P src parser w
    let pr := Transfer_Parse os P src parser w
    let pcall := Call.parse readyBytes pr.SUCCESS
    match drain os dest rd.2 (pr.queued.foldl QueueWrite this.m_output_vec) with
    | none => none
    | some d =>
        match d.failed with
        | some errno =>
            some ⟨false, system_error errno, pr.parser, d.m_output_vec, d.sys,
              rcall :: pcall :: d.calls⟩
        | none =>
            some ⟨pr.SUCCESS, ec, pr.parser, d.m_output_vec, d.sys, rcall :: pcall :: d.calls⟩

/-- What `RunOne` leaves behind. -/
structure RunOneResult (σ π : Type) where
  ret : Bool
  ec : error_code
  session : ProxySession π
  sys : σ
  calls : List Call

/-- The `ProxySession::RunOne(epoll_fd, client_fd, ec)`; it returns whenever `Transfer`
does, that is always (`RunOne_total`). -/
def RunOne {σ π : Type} (os : Sys σ) (P : IParser π) (codes : Error → Int)
    (this : ProxySession π) (epoll_fd client_fd : Fd) (ec : error_code) (w : σ) :
    Option (RunOneResult σ π) :=
  let wt := os.epoll_wait w epoll_fd
  let num := wt.1.num
  let event := wt.1.event
  if num < 0 then
    some ⟨false, system_error wt.1.errno, this, wt.2, [Call.epoll_wait num]⟩
  else if event.events &&& EPOLLIN ≠ 0 then
    if event.fd = client_fd then
      match Transfer os P codes this client_fd this.m_server_fd this.m_c2sParser ec wt.2 with
      | none => none
      | some t =>
          some ⟨t.ret, t.ec,
            ⟨this.m_server_fd, this.m_s2cParser, t.parser, t.m_output_vec⟩,
            t.sys, Call.epoll_wait num :: t.calls⟩
    else
      match Transfer os P codes this this.m_server_fd client_fd this.m_s2cParser ec wt.2 with
      | none => none
      | some t =>
          some ⟨t.ret, t.ec,
            ⟨this.m_server_fd, t.parser, this.m_c2sParser, t.m_output_vec⟩,
            t.sys, Call.epoll_wait num :: t.calls⟩
  else
    some ⟨false, make_error_code codes Error.EPOLL_SOCKET_ERR, this, wt.2, [Call.epoll_wait num]⟩

/-- The variables of `Run` while its loop runs, and the calls issued so far. -/
structure RunState (σ π : Type) where
  session : ProxySession π
  ec : error_code
  sys : σ
  calls : List Call

/-- The loop `while(!ec) { RunOne(epoll_fd, client_fd, ec); }` of `Run` (lines 81-84),
run for at most `fuel` events: `some s` when the loop was left in state `s`, `none`
when it is still running after `fuel` events. The value `RunOne` returns is not
used. -/
def Run_loop {σ π : Type} (os : Sys σ) (P : IParser π) (codes : Error → Int)
    (epoll_fd client_fd : Fd) : Nat → RunState σ π → Option (RunState σ π)
  | 0, s => if s.ec.isSet then some s else none
  | fuel + 1, s =>
      if s.ec.isSet then some s
      else
        match RunOne os P codes s.session epoll_fd client_fd s.ec s.sys with
        | none => none
        | some r => Run_loop os P codes epoll_fd client_fd fuel ⟨r.session, r.ec, r.sys, s.calls ++ r.calls⟩

/-- In a list of calls, every write that accepted `k > 0` bytes, fewer than it was
offered, is directly followed by a write on the same handle that offers the same
slice advanced by `k`. -/
def ResumesPartialWrites (cs : List Call) : Prop :=
  ∀ (i : Nat) (fd : Fd) (s : RSlice) (k : Int), cs[i]? = some (Call.write fd s k) →
    0 < k → k < s.Size →
    ∃ j, cs[i + 1]? = some (Call.write fd (s.Advance k.toNat) j) ∧
      (s.Advance k.toNat).Size = s.Size - k.toNat

/-! ## Concrete worlds and parsers

Used to evaluate the functions above on explicit inputs. -/

/-- A scripted world: the results of the calls still to come, in order. -/
structure Script where
  waits : List WaitResult
  reads : List ReadResult
  writes : List WriteResult
deriving DecidableEq, Repr

/-- The system calls over a `Script`. When a list is used up, `epoll_wait` fails with
`EINTR`, `read` reports the end of the stream and `write` fails with `EPIPE`. -/
def scripted : Sys Script where
  epoll_wait := fun s _ =>
    match s.waits with
    | [] => (⟨-1, 4, ⟨0, 0⟩⟩, s)
    | r :: t => (r, ⟨t, s.reads, s.writes⟩)
  read := fun s _ _ =>
    match s.reads with
    | [] => (⟨0, 0, []⟩, s)
    | r :: t => (r, ⟨s.waits, t, s.writes⟩)
  write := fun s _ _ =>
    match s.writes with
    | [] => (⟨-1, 32⟩, s)
    | r :: t => (r, ⟨s.waits, s.reads, t⟩)

/-- An 8-byte input buffer. -/
def buffer8 : WSlice := ⟨[0, 0, 0, 0, 0, 0, 0, 0]⟩

/-- A pass-through parser: queues the slice it is given, returns success. -/
def passthroughParser : IParser Unit where
  GetWriteSlice := fun _ => (buffer8, ())
  Parse := fun _ s => ⟨true, [s], ()⟩

/-- A fault-injecting parser: queues the slice it is given, returns failure. -/
def faultyParser : IParser Unit where
  GetWriteSlice := fun _ => (buffer8, ())
  Parse := fun _ s => ⟨false, [s], ()⟩

/-- A re-framing parser: queues the first two bytes and the rest as two slices. -/
def splitParser : IParser Unit where
  GetWriteSlice := fun _ => (buffer8, ())
  Parse := fun _ s => ⟨true, [s.Take 2, s.Advance 2], ()⟩

/-- Example values for the enumerators of `proxy::Error`. -/
def exampleCodes : Error → Int
  | Error.END_OF_FILE => 1
  | Error.EPOLL_SOCKET_ERR => 2

/-- A session whose server handle is 4 (the client handle is 5 below), with nothing
queued. -/
def session4 : ProxySession Unit := ⟨4, (), (), []⟩

/-- The event "handle `fd` is readable". -/
def readable (fd : Fd) : WaitResult := ⟨1, 0, ⟨EPOLLIN, fd⟩⟩

/-- The five bytes of the line `PING`: the four letters and the line feed. -/
def PING : List Byte := [80, 73, 78, 71, 10]

/-! ## The inner loop -/

theorem RSlice.isEmpty_iff (s : RSlice) : s.IsEmpty = true ↔ s.Size = 0 := by
  simp [RSlice.IsEmpty, RSlice.Size]

theorem RSlice.size_advance (s : RSlice) (n : Nat) : (s.Advance n).Size = s.Size - n := by
  simp [RSlice.Advance, RSlice.Size]

theorem foldl_QueueWrite (q slices : List RSlice) :
    slices.foldl QueueWrite q = q ++ slices := by
  induction slices generalizing q with
  | nil => simp
  | cons s t ih => simp [List.foldl, ih, QueueWrite]

/-- With `slice.Size()` writes allowed (or more), the inner loop is always left. -/
theorem writeAll_total {σ : Type} (os : Sys σ) (dest : Fd) (fuel : Nat) :
    ∀ (w : σ) (slice : RSlice), slice.Size ≤ fuel →
      ∃ l, writeAll os dest fuel w slice = some l := by
  induction fuel with
  | zero =>
      intro w slice h
      have he : slice.IsEmpty = true := (RSlice.isEmpty_iff slice).2 (by omega)
      simp [writeAll, he]
  | succ n ih =>
      intro w slice h
      by_cases he : slice.IsEmpty = true
      · simp [writeAll, he]
      · by_cases hk : (os.write w dest slice).1.ret ≤ 0
        · simp [writeAll, he, hk]
        · have hpos : 0 < slice.Size := by
            rcases Nat.eq_zero_or_pos slice.Size with h0 | h0
            · exact absurd ((RSlice.isEmpty_iff slice).2 h0) he
            · exact h0
          have hlt : (slice.Advance (os.write w dest slice).1.ret.toNat).Size ≤ n := by
            rw [RSlice.size_advance]
            have : 0 < (os.write w dest slice).1.ret.toNat := by omega
            omega
          obtain ⟨l, hl⟩ := ih (os.write w dest slice).2 _ hlt
          simp [writeAll, he, hk, hl]

theorem delivered_append (fd : Fd) (xs ys : List Call) :
    delivered fd (xs ++ ys) = delivered fd xs ++ delivered fd ys := by
  induction xs with
  | nil => simp [delivered]
  | cons c t ih =>
      cases c with
      | write d o k =>
          by_cases h : d = fd ∧ 0 < k
          · simp [delivered, h, ih]
          · simpa [delivered, h] using ih
      | epoll_wait n => simpa [delivered] using ih
      | read f c r => simpa [delivered] using ih
      | parse b f => simpa [delivered] using ih

theorem writeCount_append (xs ys : List Call) :
    writeCount (xs ++ ys) = writeCount xs + writeCount ys := by
  simp [writeCount]

/-- What the inner loop leaves behind: only writes on `dest`, at most one per byte of
the slice; what was accepted is a prefix of the slice, the whole of it exactly when
the loop was not left through `return false`, which is exactly when every write
returned a positive count. -/
theorem writeAll_spec {σ : Type} (os : Sys σ) (dest : Fd) (fuel : Nat) :
    ∀ (w : σ) (slice : RSlice) (l : WriteLoop σ), writeAll os dest fuel w slice = some l →
      (∀ c ∈ l.calls, ∃ s k, c = Call.write dest s k) ∧
      l.calls.length ≤ slice.Size ∧
      (∃ rest, delivered dest l.calls ++ rest = slice.bytes ∧ (l.failed = none ↔ rest = [])) ∧
      (l.failed = none ↔ ∀ fd s k, Call.write fd s k ∈ l.calls → 0 < k) := by
  induction fuel with
  | zero =>
      intro w slice l h
      by_cases he : slice.IsEmpty = true
      · simp [writeAll, he] at h
        subst h
        have h0 : slice.bytes = [] := by
          have := (RSlice.isEmpty_iff slice).1 he
          exact List.length_eq_zero.1 this
        simp [delivered, h0]
      · simp [writeAll, he] at h
  | succ n ih =>
      intro w slice l h
      by_cases he : slice.IsEmpty = true
      · simp [writeAll, he] at h
        subst h
        have h0 : slice.bytes = [] := by
          have := (RSlice.isEmpty_iff slice).1 he
          exact List.length_eq_zero.1 this
        simp [delivered, h0]
      · have hpos : 0 < slice.Size := by
          rcases Nat.eq_zero_or_pos slice.Size with h0 | h0
          · exact absurd ((RSlice.isEmpty_iff slice).2 h0) he
          · exact h0
        by_cases hk : (os.write w dest slice).1.ret ≤ 0
        · simp [writeAll, he, hk] at h
          subst h
          refine ⟨?_, ?_, ?_, ?_⟩
          · intro c hc
            simp at hc
            exact ⟨_, _, hc⟩
          · simpa using hpos
          · refine ⟨slice.bytes, ?_, ?_⟩
            · have : ¬ (0 < (os.write w dest slice).1.ret) := by omega
              simp [delivered, this]
            · simp
              intro h0
              simp [RSlice.Size, h0] at hpos
          · simp
            exact hk
        · cases hrec : writeAll os dest n (os.write w dest slice).2
              (slice.Advance (os.write w dest slice).1.ret.toNat) with
          | none => simp [writeAll, he, hk, hrec] at h
          | some l1 =>
              simp [writeAll, he, hk, hrec] at h
              subst h
              obtain ⟨hc, hlen, ⟨rest, hrest, hiff⟩, hall⟩ := ih _ _ _ hrec
              have hkpos : 0 < (os.write w dest slice).1.ret := by omega
              have hknat : 0 < (os.write w dest slice).1.ret.toNat := by omega
              refine ⟨?_, ?_, ?_, ?_⟩
              · intro c hc1
                simp at hc1
                rcases hc1 with hc1 | hc1
                · exact ⟨_, _, hc1⟩
                · exact hc c hc1
              · rw [RSlice.size_advance] at hlen
                simp
                omega
              · refine ⟨rest, ?_, hiff⟩
                simp only [delivered, hkpos, and_self, if_true, RSlice.Take, List.append_assoc]
                rw [hrest]
                simp [RSlice.Advance]
              · simp only
                rw [hall]
                constructor
                · intro h1 fd s k hmem
                  simp at hmem
                  rcases hmem with ⟨_, _, rfl⟩ | hmem
                  · exact hkpos
                  · exact h1 fd s k hmem
                · intro h1 fd s k hmem
                  exact h1 fd s k (List.mem_cons_of_mem _ hmem)

/-! ## The outer loop -/

/-- The outer loop is always left. -/
theorem drain_total {σ : Type} (os : Sys σ) (dest : Fd) (q : List RSlice) :
    ∀ (w : σ), ∃ d, drain os dest w q = some d := by
  induction q with
  | nil => intro w; simp [drain]
  | cons slice rest ih =>
      intro w
      obtain ⟨l, hl⟩ := writeAll_total os dest slice.Size w slice (Nat.le_refl _)
      cases hf : l.failed with
      | some e => simp [drain, hl, hf]
      | none =>
          obtain ⟨d, hd⟩ := ih l.sys
          simp [drain, hl, hf, hd]

/-- What the outer loop leaves behind. When no write failed the queue is empty and
the destination accepted the content of the queue; when a write failed, the slices
behind the one being written are still queued. -/
theorem drain_spec {σ : Type} (os : Sys σ) (dest : Fd) (q : List RSlice) :
    ∀ (w : σ) (d : DrainResult σ), drain os dest w q = some d →
      (∀ c ∈ d.calls, ∃ s k, c = Call.write dest s k) ∧
      d.calls.length ≤ queuedBytes q ∧
      (d.failed = none ↔ ∀ fd s k, Call.write fd s k ∈ d.calls → 0 < k) ∧
      (d.failed = none → d.m_output_vec = [] ∧ delivered dest d.calls = queueContent q) ∧
      (d.failed ≠ none → ∃ front cur rest, q = front ++ cur :: d.m_output_vec ∧
          delivered dest d.calls ++ rest = queueContent (front ++ [cur]) ∧ rest ≠ []) := by
  induction q with
  | nil =>
      intro w d h
      simp [drain] at h
      subst h
      simp [queuedBytes, queueContent, delivered]
  | cons slice tail ih =>
      intro w d h
      cases hl : writeAll os dest slice.Size w slice with
      | none => simp [drain, hl] at h
      | some l =>
          obtain ⟨hc, hlen, ⟨rest, hrest, hiff⟩, hall⟩ := writeAll_spec os dest _ _ _ _ hl
          cases hf : l.failed with
          | some e =>
              simp [drain, hl, hf] at h
              subst h
              refine ⟨hc, ?_, ?_, ?_, ?_⟩
              · simp [queuedBytes]
                omega
              · simp only
                rw [← hall, hf]
              · simp
              · intro _
                refine ⟨[], slice, rest, by simp, ?_, ?_⟩
                · simpa [queueContent] using hrest
                · intro h0
                  have := hiff.2 h0
                  rw [hf] at this
                  exact Option.noConfusion this
          | none =>
              cases hd : drain os dest l.sys tail with
              | none => simp [drain, hl, hf, hd] at h
              | some d1 =>
                  simp [drain, hl, hf, hd] at h
                  subst h
                  obtain ⟨hc1, hlen1, hall1, hok1, hbad1⟩ := ih _ _ hd
                  have hrest0 : rest = [] := hiff.1 hf
                  have hpos := hall.1 hf
                  refine ⟨?_, ?_, ?_, ?_, ?_⟩
                  · intro c hmem
                    simp at hmem
                    rcases hmem with hmem | hmem
                    · exact hc c hmem
                    · exact hc1 c hmem
                  · simp [queuedBytes] at hlen1 ⊢
                    omega
                  · simp only
                    rw [hall1]
                    constructor
                    · intro h1 fd s k hmem
                      simp at hmem
                      rcases hmem with hmem | hmem
                      · exact hpos fd s k hmem
                      · exact h1 fd s k hmem
                    · intro h1 fd s k hmem
                      exact h1 fd s k (List.mem_append_right _ hmem)
                  · intro hnone
                    obtain ⟨hq, hdel⟩ := hok1 hnone
                    refine ⟨hq, ?_⟩
                    simp only [delivered_append, hdel]
                    rw [hrest0] at hrest
                    simp at hrest
                    simp [queueContent, hrest]
                  · intro hne
                    obtain ⟨front, cur, rest1, hq, hdel, hne1⟩ := hbad1 hne
                    refine ⟨slice :: front, cur, rest1, ?_, ?_, hne1⟩
                    · simp [hq]
                    · rw [hrest0] at hrest
                      simp at hrest
                      simp only [delivered_append, List.append_assoc, hdel]
                      simp [queueContent, hrest]

/-! ## Transfer -/

theorem delivered_read_parse (fd a : Fd) (n : Nat) (k : Int) (b : RSlice) (f : Bool)
    (cs : List Call) :
    delivered fd (Call.read a n k :: Call.parse b f :: cs) = delivered fd cs := by
  simp [delivered]

theorem mem_write_read_parse (fd a : Fd) (s : RSlice) (j : Int) (n : Nat) (k : Int)
    (b : RSlice) (f : Bool) (cs : List Call) :
    Call.write fd s j ∈ Call.read a n k :: Call.parse b f :: cs ↔ Call.write fd s j ∈ cs := by
  simp

theorem writeCount_of_writes (dest : Fd) (cs : List Call)
    (h : ∀ c ∈ cs, ∃ s k, c = Call.write dest s k) : writeCount cs = cs.length := by
  induction cs with
  | nil => simp [writeCount]
  | cons c t ih =>
      obtain ⟨s, k, rfl⟩ := h _ (List.mem_cons_self _ _)
      have := ih (fun c hc => h c (List.mem_cons_of_mem _ hc))
      simp [writeCount, Call.isWrite] at this ⊢
      exact this

/-- A `Transfer` whose read returned a positive count: `Parse` is called on
`readyBytes`, the queue is drained, and the result is put together from what the
drain left behind. -/
theorem Transfer_of_read_pos {σ π : Type} (os : Sys σ) (P : IParser π) (codes : Error → Int)
    (this : ProxySession π) (src dest : Fd) (parser : π) (ec : error_code) (w : σ)
    (hn : 0 < (Transfer_read os P src parser w).1.ret) :
    ∃ d, drain os dest (Transfer_read os P src parser w).2
          (this.m_output_vec ++ (Transfer_Parse os P src parser w).queued) = some d ∧
      Transfer os P codes this src dest parser ec w =
        some ⟨(match d.failed with
                | some _ => false
                | none => (Transfer_Parse os P src parser w).SUCCESS),
              (match d.failed with
                | some errno => system_error errno
                | none => ec),
              (Transfer_Parse os P src parser w).parser, d.m_output_vec, d.sys,
              Call.read src (Transfer_inBuff P parser).Size (Transfer_read os P src parser w).1.ret ::
                Call.parse (Transfer_readyBytes os P src parser w)
                  (Transfer_Parse os P src parser w).SUCCESS :: d.calls⟩ := by
  obtain ⟨d, hd⟩ := drain_total os dest
    (this.m_output_vec ++ (Transfer_Parse os P src parser w).queued)
    (Transfer_read os P src parser w).2
  refine ⟨d, hd, ?_⟩
  have h1 : ¬ (Transfer_read os P src parser w).1.ret < 0 := by omega
  have h2 : ¬ (Transfer_read os P src parser w).1.ret = 0 := by omega
  cases hf : d.failed with
  | some e => simp [Transfer, h1, h2, foldl_QueueWrite, hd, hf]
  | none => simp [Transfer, h1, h2, foldl_QueueWrite, hd, hf]

/-- One more unit of fuel does not change what the inner loop leaves behind. -/
theorem writeAll_fuel_succ {σ : Type} (os : Sys σ) (dest : Fd) (fuel : Nat) :
    ∀ (w : σ) (slice : RSlice) (l : WriteLoop σ), writeAll os dest fuel w slice = some l →
      writeAll os dest (fuel + 1) w slice = some l := by
  induction fuel with
  | zero =>
      intro w slice l h
      by_cases he : slice.IsEmpty = true
      · simpa [writeAll, he] using h
      · simp [writeAll, he] at h
  | succ n ih =>
      intro w slice l h
      by_cases he : slice.IsEmpty = true
      · simpa [writeAll, he] using h
      · by_cases hk : (os.write w dest slice).1.ret ≤ 0
        · simpa [writeAll, he, hk] using h
        · cases hrec : writeAll os dest n (os.write w dest slice).2
              (slice.Advance (os.write w dest slice).1.ret.toNat) with
          | none => simp [writeAll, he, hk, hrec] at h
          | some l1 =>
              have h2 := ih _ _ _ hrec
              rw [writeAll] at h
              simp only [he, hk, hrec, if_false] at h
              rw [writeAll]
              simp only [he, hk, h2, if_false]
              exact h

/-- Any fuel of at least `slice.Size()` gives what `slice.Size()` gives. -/
theorem writeAll_fuel_irrelevant {σ : Type} (os : Sys σ) (dest : Fd) (w : σ) (slice : RSlice)
    (fuel : Nat) (h : slice.Size ≤ fuel) :
    writeAll os dest fuel w slice = writeAll os dest slice.Size w slice := by
  obtain ⟨l, hl⟩ := writeAll_total os dest slice.Size w slice (Nat.le_refl _)
  rw [hl]
  obtain ⟨m, rfl⟩ := Nat.exists_eq_add_of_le h
  induction m with
  | zero => exact hl
  | succ j ih => exact writeAll_fuel_succ os dest _ _ _ _ (ih (Nat.le_add_right _ _))

/-- In the calls of the inner loop, the first write offers the whole slice, and a
write that accepted `k` bytes, fewer than offered, is followed by a write that offers
the slice advanced by `k`. -/
theorem writeAll_resume {σ : Type} (os : Sys σ) (dest : Fd) (fuel : Nat) :
    ∀ (w : σ) (slice : RSlice) (l : WriteLoop σ), writeAll os dest fuel w slice = some l →
      (slice.IsEmpty = false → ∃ k, l.calls[0]? = some (Call.write dest slice k)) ∧
      ∀ (i : Nat) (s : RSlice) (k : Int), l.calls[i]? = some (Call.write dest s k) →
        0 < k → k.toNat < s.Size →
        ∃ j, l.calls[i + 1]? = some (Call.write dest (s.Advance k.toNat) j) := by
  induction fuel with
  | zero =>
      intro w slice l h
      by_cases he : slice.IsEmpty = true
      · simp [writeAll, he] at h
        subst h
        simp [he]
      · simp [writeAll, he] at h
  | succ n ih =>
      intro w slice l h
      by_cases he : slice.IsEmpty = true
      · simp [writeAll, he] at h
        subst h
        simp [he]
      · by_cases hk : (os.write w dest slice).1.ret ≤ 0
        · simp [writeAll, he, hk] at h
          subst h
          refine ⟨fun _ => ⟨(os.write w dest slice).1.ret, by simp⟩, ?_⟩
          intro i s k hi hpos hlt
          cases i with
          | zero =>
              simp at hi
              obtain ⟨_, rfl⟩ := hi
              omega
          | succ i => simp at hi
        · cases hrec : writeAll os dest n (os.write w dest slice).2
              (slice.Advance (os.write w dest slice).1.ret.toNat) with
          | none => simp [writeAll, he, hk, hrec] at h
          | some l1 =>
              simp [writeAll, he, hk, hrec] at h
              subst h
              obtain ⟨hhead, hstep⟩ := ih _ _ _ hrec
              refine ⟨fun _ => ⟨(os.write w dest slice).1.ret, by simp⟩, ?_⟩
              intro i s k hi hpos hlt
              cases i with
              | zero =>
                  simp at hi
                  obtain ⟨rfl, rfl⟩ := hi
                  have hne : (slice.Advance (os.write w dest slice).1.ret.toNat).IsEmpty
                      = false := by
                    have hsz := RSlice.size_advance slice (os.write w dest slice).1.ret.toNat
                    cases hb : (slice.Advance (os.write w dest slice).1.ret.toNat).IsEmpty with
                    | false => rfl
                    | true =>
                        have := (RSlice.isEmpty_iff _).1 hb
                        omega
                  obtain ⟨j, hj⟩ := hhead hne
                  exact ⟨j, by simpa using hj⟩
              | succ i =>
                  simp at hi
                  obtain ⟨j, hj⟩ := hstep i s k hi hpos hlt
                  exact ⟨j, by simpa using hj⟩

theorem writeAll_resumes {σ : Type} (os : Sys σ) (dest : Fd) (fuel : Nat) (w : σ)
    (slice : RSlice) (l : WriteLoop σ) (h : writeAll os dest fuel w slice = some l) :
    ResumesPartialWrites l.calls := by
  intro i fd s k hi hpos hlt
  have hfd : fd = dest := by
    have hmem : Call.write fd s k ∈ l.calls := List.getElem?_mem hi
    obtain ⟨s1, k1, h1⟩ := (writeAll_spec os dest fuel w slice l h).1 _ hmem
    cases h1
    rfl
  subst hfd
  obtain ⟨j, hj⟩ := (writeAll_resume os fd fuel w slice l h).2 i s k hi hpos (by omega)
  exact ⟨j, hj, RSlice.size_advance _ _⟩

theorem ResumesPartialWrites.append {xs ys : List Call} (hx : ResumesPartialWrites xs)
    (hy : ResumesPartialWrites ys) : ResumesPartialWrites (xs ++ ys) := by
  intro i fd s k hi hpos hlt
  by_cases hlen : i < xs.length
  · rw [List.getElem?_append_left hlen] at hi
    obtain ⟨j, hj, hsz⟩ := hx i fd s k hi hpos hlt
    have hlen1 : i + 1 < xs.length := by
      by_contra hc
      rw [List.getElem?_eq_none (by omega)] at hj
      exact Option.noConfusion hj
    exact ⟨j, by rw [List.getElem?_append_left hlen1]; exact hj, hsz⟩
  · have hge : xs.length ≤ i := by omega
    rw [List.getElem?_append_right hge] at hi
    obtain ⟨j, hj, hsz⟩ := hy (i - xs.length) fd s k hi hpos hlt
    refine ⟨j, ?_, hsz⟩
    rw [List.getElem?_append_right (by omega)]
    have : i + 1 - xs.length = i - xs.length + 1 := by omega
    rw [this]
    exact hj

theorem drain_resumes {σ : Type} (os : Sys σ) (dest : Fd) (q : List RSlice) :
    ∀ (w : σ) (d : DrainResult σ), drain os dest w q = some d →
      ResumesPartialWrites d.calls := by
  induction q with
  | nil =>
      intro w d h
      simp [drain] at h
      subst h
      intro i fd s k hi
      simp at hi
  | cons slice tail ih =>
      intro w d h
      cases hl : writeAll os dest slice.Size w slice with
      | none => simp [drain, hl] at h
      | some l =>
          have hres := writeAll_resumes os dest _ _ _ _ hl
          cases hf : l.failed with
          | some e =>
              simp [drain, hl, hf] at h
              subst h
              exact hres
          | none =>
              cases hd : drain os dest l.sys tail with
              | none => simp [drain, hl, hf, hd] at h
              | some d1 =>
                  simp [drain, hl, hf, hd] at h
                  subst h
                  exact hres.append (ih _ _ hd)

theorem ResumesPartialWrites.read_parse {cs : List Call} (h : ResumesPartialWrites cs)
    (a : Fd) (n : Nat) (k : Int) (b : RSlice) (f : Bool) :
    ResumesPartialWrites (Call.read a n k :: Call.parse b f :: cs) := by
  have h2 : ResumesPartialWrites [Call.read a n k, Call.parse b f] := by
    intro i fd s j hi
    match i with
    | 0 => simp at hi
    | 1 => simp at hi
    | i + 2 => simp at hi
  exact h2.append h

/-- A `Transfer` whose read did not return a positive count: nothing but the read is
issued. -/
theorem Transfer_of_read_nonpos {σ π : Type} (os : Sys σ) (P : IParser π) (codes : Error → Int)
    (this : ProxySession π) (src dest : Fd) (parser : π) (ec : error_code) (w : σ)
    (hn : (Transfer_read os P src parser w).1.ret ≤ 0) :
    Transfer os P codes this src dest parser ec w =
      some ⟨false,
        (if (Transfer_read os P src parser w).1.ret < 0
          then system_error (Transfer_read os P src parser w).1.errno
          else make_error_code codes Error.END_OF_FILE),
        (P.GetWriteSlice parser).2, this.m_output_vec, (Transfer_read os P src parser w).2,
        [Call.read src (Transfer_inBuff P parser).Size (Transfer_read os P src parser w).1.ret]⟩ := by
  by_cases h1 : (Transfer_read os P src parser w).1.ret < 0
  · simp [Transfer, h1]
  · have h2 : (Transfer_read os P src parser w).1.ret = 0 := by omega
    simp [Transfer, h2]

/-- Every `Transfer` returns; its reads are on `src` and its writes on `dest`. -/
theorem Transfer_total {σ π : Type} (os : Sys σ) (P : IParser π) (codes : Error → Int)
    (this : ProxySession π) (src dest : Fd) (parser : π) (ec : error_code) (w : σ) :
    ∃ r, Transfer os P codes this src dest parser ec w = some r ∧
      (∀ fd n k, Call.read fd n k ∈ r.calls → fd = src) ∧
      (∀ fd s k, Call.write fd s k ∈ r.calls → fd = dest) := by
  by_cases hn : 0 < (Transfer_read os P src parser w).1.ret
  · obtain ⟨d, hd, hT⟩ := Transfer_of_read_pos os P codes this src dest parser ec w hn
    obtain ⟨hc, _⟩ := drain_spec os dest _ _ _ hd
    refine ⟨_, hT, ?_, ?_⟩
    · intro fd n k hmem
      simp at hmem
      rcases hmem with ⟨h, _⟩ | hmem
      · exact h
      · obtain ⟨s1, k1, h1⟩ := hc _ hmem
        cases h1
    · intro fd s k hmem
      simp only [mem_write_read_parse] at hmem
      obtain ⟨s1, k1, h1⟩ := hc _ hmem
      cases h1
      rfl
  · refine ⟨_, Transfer_of_read_nonpos os P codes this src dest parser ec w (by omega), ?_, ?_⟩
    · intro fd n k hmem
      simp at hmem
      exact hmem.1
    · intro fd s k hmem
      simp at hmem

/-- A readable event on the client handle: `RunOne` is the `Transfer` from the client
to the server through the c2s parser. -/
theorem RunOne_of_client {σ π : Type} (os : Sys σ) (P : IParser π) (codes : Error → Int)
    (this : ProxySession π) (epoll_fd client_fd : Fd) (ec : error_code) (w : σ)
    (hnum : 0 ≤ (os.epoll_wait w epoll_fd).1.num)
    (hin : (os.epoll_wait w epoll_fd).1.event.events &&& EPOLLIN ≠ 0)
    (hfd : (os.epoll_wait w epoll_fd).1.event.fd = client_fd) :
    RunOne os P codes this epoll_fd client_fd ec w =
      (Transfer os P codes this client_fd this.m_server_fd this.m_c2sParser ec
          (os.epoll_wait w epoll_fd).2).map
        (fun t => ⟨t.ret, t.ec, ⟨this.m_server_fd, this.m_s2cParser, t.parser, t.m_output_vec⟩,
          t.sys, Call.epoll_wait (os.epoll_wait w epoll_fd).1.num :: t.calls⟩) := by
  have h1 : ¬ (os.epoll_wait w epoll_fd).1.num < 0 := by omega
  unfold RunOne
  simp only [h1, hin, hfd, if_false, if_true, ne_eq, not_false_eq_true]
  cases Transfer os P codes this client_fd this.m_server_fd this.m_c2sParser ec
    (os.epoll_wait w epoll_fd).2 <;> rfl

/-- A readable event on any other handle: `RunOne` is the `Transfer` from the server
to the client through the s2c parser. -/
theorem RunOne_of_other {σ π : Type} (os : Sys σ) (P : IParser π) (codes : Error → Int)
    (this : ProxySession π) (epoll_fd client_fd : Fd) (ec : error_code) (w : σ)
    (hnum : 0 ≤ (os.epoll_wait w epoll_fd).1.num)
    (hin : (os.epoll_wait w epoll_fd).1.event.events &&& EPOLLIN ≠ 0)
    (hfd : (os.epoll_wait w epoll_fd).1.event.fd ≠ client_fd) :
    RunOne os P codes this epoll_fd client_fd ec w =
      (Transfer os P codes this this.m_server_fd client_fd this.m_s2cParser ec
          (os.epoll_wait w epoll_fd).2).map
        (fun t => ⟨t.ret, t.ec, ⟨this.m_server_fd, t.parser, this.m_c2sParser, t.m_output_vec⟩,
          t.sys, Call.epoll_wait (os.epoll_wait w epoll_fd).1.num :: t.calls⟩) := by
  have h1 : ¬ (os.epoll_wait w epoll_fd).1.num < 0 := by omega
  unfold RunOne
  simp only [h1, hin, hfd, if_false, if_true, ne_eq, not_false_eq_true]
  cases Transfer os P codes this this.m_server_fd client_fd this.m_s2cParser ec
    (os.epoll_wait w epoll_fd).2 <;> rfl

/-- Every `RunOne` returns, and the first call it issues is the `epoll_wait`. -/
theorem RunOne_total {σ π : Type} (os : Sys σ) (P : IParser π) (codes : Error → Int)
    (this : ProxySession π) (epoll_fd client_fd : Fd) (ec : error_code) (w : σ) :
    ∃ r, RunOne os P codes this epoll_fd client_fd ec w = some r ∧
      r.calls[0]? = some (Call.epoll_wait (os.epoll_wait w epoll_fd).1.num) := by
  by_cases h1 : (os.epoll_wait w epoll_fd).1.num < 0
  · simp [RunOne, h1]
  · by_cases hin : (os.epoll_wait w epoll_fd).1.event.events &&& EPOLLIN ≠ 0
    · by_cases hfd : (os.epoll_wait w epoll_fd).1.event.fd = client_fd
      · obtain ⟨t, ht, _⟩ := Transfer_total os P codes this client_fd this.m_server_fd
          this.m_c2sParser ec (os.epoll_wait w epoll_fd).2
        rw [RunOne_of_client os P codes this epoll_fd client_fd ec w (by omega) hin hfd, ht]
        exact ⟨_, rfl, by simp⟩
      · obtain ⟨t, ht, _⟩ := Transfer_total os P codes this this.m_server_fd client_fd
          this.m_s2cParser ec (os.epoll_wait w epoll_fd).2
        rw [RunOne_of_other os P codes this epoll_fd client_fd ec w (by omega) hin hfd, ht]
        exact ⟨_, rfl, by simp⟩
    · simp [RunOne, h1, hin]

/-- An iteration of the loop of `Run` entered with `ec` clear runs `RunOne` and goes
back to the test of `ec`. -/
theorem Run_loop_step {σ π : Type} (os : Sys σ) (P : IParser π) (codes : Error → Int)
    (epoll_fd client_fd : Fd) (n : Nat) (s : RunState σ π) (r : RunOneResult σ π)
    (hec : s.ec.isSet = false)
    (hr : RunOne os P codes s.session epoll_fd client_fd s.ec s.sys = some r) :
    Run_loop os P codes epoll_fd client_fd (n + 1) s =
      Run_loop os P codes epoll_fd client_fd n ⟨r.session, r.ec, r.sys, s.calls ++ r.calls⟩ := by
  simp [Run_loop, hec, hr]

/-- The loop of `Run` is left as soon as `ec` is set. -/
theorem Run_loop_exit {σ π : Type} (os : Sys σ) (P : IParser π) (codes : Error → Int)
    (epoll_fd client_fd : Fd) (n : Nat) (s : RunState σ π) (hec : s.ec.isSet = true) :
    Run_loop os P codes epoll_fd client_fd n s = some s := by
  cases n <;> simp [Run_loop, hec]

/-- A read of zero appears among the calls of a `Transfer` only when its own read
returned zero. -/
theorem Transfer_read_zero_of_mem {σ π : Type} (os : Sys σ) (P : IParser π)
    (codes : Error → Int) (this : ProxySession π) (src dest : Fd) (parser : π)
    (ec : error_code) (w : σ) (t : TransferResult σ π)
    (ht : Transfer os P codes this src dest parser ec w = some t)
    (hmem : ∃ fd n, Call.read fd n 0 ∈ t.calls) :
    (Transfer_read os P src parser w).1.ret = 0 := by
  obtain ⟨fd, n, hmem⟩ := hmem
  by_cases hn : 0 < (Transfer_read os P src parser w).1.ret
  · obtain ⟨d, hd, hT⟩ := Transfer_of_read_pos os P codes this src dest parser ec w hn
    obtain ⟨hc, _⟩ := drain_spec os dest _ _ _ hd
    rw [hT] at ht
    cases ht
    simp at hmem
    rcases hmem with ⟨_, _, h0⟩ | hmem
    · exact h0.symm
    · obtain ⟨s1, k1, h1⟩ := hc _ hmem
      cases h1
  · have hT := Transfer_of_read_nonpos os P codes this src dest parser ec w (by omega)
    rw [hT] at ht
    cases ht
    simp at hmem
    exact hmem.2.2.symm

/-- The buffer stored into at its front, cut to the count read, is what was read. -/
theorem readyBytes_eq (buf : WSlice) (B : List Byte) (h : B.length ≤ buf.Size) :
    ((buf.store B).ToRSlice).Take B.length = ⟨B⟩ := by
  simp only [WSlice.store, WSlice.ToRSlice, RSlice.Take, WSlice.Size] at *
  rw [List.take_take, Nat.min_eq_left h, List.take_left]

/-- C1. A `Transfer` that starts with an empty output queue, whose read returns a
positive count and whose `Parse` queues the slices `slices` through `QueueWrite`,
returns; and if every write it issued accepted a positive count not exceeding the
size offered, the bytes the destination accepted are exactly the concatenation of
`slices` in queueing order, every write went to the destination, and nothing is left
in the queue. -/
theorem Transfer_delivers_queued_slices {σ π : Type} (os : Sys σ) (P : IParser π)
    (codes : Error → Int) (this : ProxySession π) (src dest : Fd) (parser : π)
    (ec : error_code) (w : σ) (slices : List RSlice)
    (hq : this.m_output_vec = [])
    (hn : 0 < (Transfer_read os P src parser w).1.ret)
    (hS : (Transfer_Parse os P src parser w).queued = slices) :
    ∃ r, Transfer os P codes this src dest parser ec w = some r ∧
      ((∀ fd s k, Call.write fd s k ∈ r.calls → 0 < k ∧ k ≤ s.Size) →
        delivered dest r.calls = (slices.map RSlice.bytes).flatten ∧
        (∀ fd s k, Call.write fd s k ∈ r.calls → fd = dest) ∧
        r.m_output_vec = []) := by
  obtain ⟨d, hd, hT⟩ := Transfer_of_read_pos os P codes this src dest parser ec w hn
  refine ⟨_, hT, ?_⟩
  intro hw
  obtain ⟨hc, _, hall, hok, _⟩ := drain_spec os dest _ _ _ hd
  have hnone : d.failed = none := by
    rw [hall]
    intro fd s k hmem
    exact (hw fd s k (by simp [hmem])).1
  obtain ⟨hempty, hdel⟩ := hok hnone
  refine ⟨?_, ?_, hempty⟩
  · simp only [delivered_read_parse, hdel]
    simp [queueContent, hq, hS]
  · intro fd s k hmem
    simp only [mem_write_read_parse] at hmem
    obtain ⟨s1, k1, h1⟩ := hc _ hmem
    cases h1
    rfl

/-- C1 on an explicit input: the parser splits the five bytes of `PING` into two
slices and the server accepts them in four partial writes. -/
theorem Transfer_delivers_queued_slices_witness :
    ∃ r, Transfer scripted splitParser exampleCodes session4 5 4 () (system_error 0)
          ⟨[], [⟨5, 0, PING⟩], [⟨1, 0⟩, ⟨1, 0⟩, ⟨2, 0⟩, ⟨1, 0⟩]⟩ = some r ∧
      delivered 4 r.calls = PING ∧ r.m_output_vec = [] ∧ writeCount r.calls = 4 := by
  obtain ⟨r, hr, h⟩ := Transfer_delivers_queued_slices scripted splitParser exampleCodes
    session4 5 4 () (system_error 0) ⟨[], [⟨5, 0, PING⟩], [⟨1, 0⟩, ⟨1, 0⟩, ⟨2, 0⟩, ⟨1, 0⟩]⟩
    [⟨[80, 73]⟩, ⟨[78, 71, 10]⟩] (by rfl) (by decide) (by decide)
  have hcalls : r.calls = [Call.read 5 8 5, Call.parse ⟨PING⟩ true, Call.write 4 ⟨[80, 73]⟩ 1,
      Call.write 4 ⟨[73]⟩ 1, Call.write 4 ⟨[78, 71, 10]⟩ 2, Call.write 4 ⟨[10]⟩ 1] := by
    have he : (Transfer scripted splitParser exampleCodes session4 5 4 () (system_error 0)
          ⟨[], [⟨5, 0, PING⟩], [⟨1, 0⟩, ⟨1, 0⟩, ⟨2, 0⟩, ⟨1, 0⟩]⟩).map (fun r => r.calls) =
        some [Call.read 5 8 5, Call.parse ⟨PING⟩ true, Call.write 4 ⟨[80, 73]⟩ 1,
          Call.write 4 ⟨[73]⟩ 1, Call.write 4 ⟨[78, 71, 10]⟩ 2, Call.write 4 ⟨[10]⟩ 1] := by
      decide
    rw [hr] at he
    simpa using he
  have hw : ∀ fd s k, Call.write fd s k ∈ r.calls → 0 < k ∧ k ≤ s.Size := by
    intro fd s k hmem
    rw [hcalls] at hmem
    simp at hmem
    rcases hmem with ⟨_, rfl, rfl⟩ | ⟨_, rfl, rfl⟩ | ⟨_, rfl, rfl⟩ | ⟨_, rfl, rfl⟩ <;> decide
  obtain ⟨h1, _, h3⟩ := h hw
  refine ⟨r, hr, ?_, h3, ?_⟩
  · rw [h1]
    decide
  · rw [hcalls]
    decide

/-- C2. Partial write resumption. In every `Transfer`, a write that accepted only `k`
bytes, `0 < k < len(slice)`, is directly followed by a write on the same handle that
offers exactly the slice after `Advance(k)`, whose size is `len(slice) - k`. And for
every queued slice, the inner loop (run by `Transfer` with `slice.Size()` as its
bound) is left, and the whole slice was accepted by the destination if and only if
no write on that slice returned zero or a negative value. -/
theorem Transfer_resumes_partial_writes {σ π : Type} (os : Sys σ) (P : IParser π)
    (codes : Error → Int) (this : ProxySession π) (src dest : Fd) (parser : π)
    (ec : error_code) (w : σ) :
    (∃ r, Transfer os P codes this src dest parser ec w = some r ∧
      ∀ (i : Nat) (fd : Fd) (s : RSlice) (k : Int),
        r.calls[i]? = some (Call.write fd s k) → 0 < k → k < s.Size →
        ∃ j, r.calls[i + 1]? = some (Call.write fd (s.Advance k.toNat) j) ∧
          (s.Advance k.toNat).Size = s.Size - k.toNat) ∧
    ∀ (v : σ) (slice : RSlice),
      ∃ l, writeAll os dest slice.Size v slice = some l ∧
        (delivered dest l.calls = slice.bytes ↔
          ∀ fd s k, Call.write fd s k ∈ l.calls → 0 < k) := by
  constructor
  · by_cases hn : 0 < (Transfer_read os P src parser w).1.ret
    · obtain ⟨d, hd, hT⟩ := Transfer_of_read_pos os P codes this src dest parser ec w hn
      exact ⟨_, hT, (drain_resumes os dest _ _ _ hd).read_parse _ _ _ _ _⟩
    · refine ⟨_, Transfer_of_read_nonpos os P codes this src dest parser ec w (by omega), ?_⟩
      intro i fd s k hi
      match i with
      | 0 => simp at hi
      | i + 1 => simp at hi
  · intro v slice
    obtain ⟨l, hl⟩ := writeAll_total os dest slice.Size v slice (Nat.le_refl _)
    refine ⟨l, hl, ?_⟩
    obtain ⟨_, _, ⟨rest, hrest, hiff⟩, hall⟩ := writeAll_spec os dest _ _ _ _ hl
    rw [← hall, hiff]
    constructor
    · intro h
      rw [h] at hrest
      simpa using hrest
    · intro h
      rw [h] at hrest
      simpa using hrest

/-- C10. The drain loops terminate. For every queue and every behaviour of the
destination (in particular when each write returns a value `<= 0` or a count `k`
with `0 < k <=` the size offered) the outer loop is left, and so is `Transfer`; the
number of writes issued is at most the number of queued bytes when all writes
succeed, and at most that number plus one in any case. The bound `slice.Size()` that
stands for the inner `while` is never what stops it: any larger bound gives the same
result. -/
theorem Transfer_drain_terminates {σ π : Type} (os : Sys σ) (P : IParser π)
    (codes : Error → Int) (this : ProxySession π) (src dest : Fd) (parser : π)
    (ec : error_code) (w : σ) :
    (∀ (v : σ) (slice : RSlice) (fuel : Nat), slice.Size ≤ fuel →
      ∃ l, writeAll os dest fuel v slice = some l ∧
        writeAll os dest slice.Size v slice = some l) ∧
    (∀ (v : σ) (q : List RSlice),
      ∃ d, drain os dest v q = some d ∧
        ((∀ fd s k, Call.write fd s k ∈ d.calls → 0 < k) →
          writeCount d.calls ≤ queuedBytes q) ∧
        writeCount d.calls ≤ queuedBytes q + 1) ∧
    (∃ r, Transfer os P codes this src dest parser ec w = some r ∧
      ((∀ fd s k, Call.write fd s k ∈ r.calls → 0 < k) →
        writeCount r.calls
          ≤ queuedBytes (this.m_output_vec ++ (Transfer_Parse os P src parser w).queued)) ∧
      writeCount r.calls
        ≤ queuedBytes (this.m_output_vec ++ (Transfer_Parse os P src parser w).queued) + 1) := by
  have hdrain : ∀ (v : σ) (q : List RSlice) (d : DrainResult σ), drain os dest v q = some d →
      writeCount d.calls ≤ queuedBytes q := by
    intro v q d hd
    obtain ⟨hc, hlen, _⟩ := drain_spec os dest q v d hd
    rw [writeCount_of_writes dest _ hc]
    exact hlen
  refine ⟨?_, ?_, ?_⟩
  · intro v slice fuel hf
    obtain ⟨l, hl⟩ := writeAll_total os dest slice.Size v slice (Nat.le_refl _)
    exact ⟨l, by rw [writeAll_fuel_irrelevant os dest v slice fuel hf]; exact hl, hl⟩
  · intro v q
    obtain ⟨d, hd⟩ := drain_total os dest q v
    have := hdrain v q d hd
    exact ⟨d, hd, fun _ => this, by omega⟩
  · by_cases hn : 0 < (Transfer_read os P src parser w).1.ret
    · obtain ⟨d, hd, hT⟩ := Transfer_of_read_pos os P codes this src dest parser ec w hn
      have := hdrain _ _ d hd
      have hcount : writeCount (Call.read src (Transfer_inBuff P parser).Size
          (Transfer_read os P src parser w).1.ret ::
            Call.parse (Transfer_readyBytes os P src parser w)
              (Transfer_Parse os P src parser w).SUCCESS :: d.calls) = writeCount d.calls := by
        simp [writeCount, Call.isWrite]
      refine ⟨_, hT, fun _ => ?_, ?_⟩
      · simp only [hcount]
        exact this
      · simp only [hcount]
        omega
    · refine ⟨_, Transfer_of_read_nonpos os P codes this src dest parser ec w (by omega), ?_, ?_⟩
      · intro _
        simp [writeCount, Call.isWrite]
      · simp [writeCount, Call.isWrite]

/-- C7. Direction dispatch in `RunOne`. For a readable event (the client and server
handles being two handles): when the reported handle is the client handle, `RunOne`
is `Transfer(client_fd, m_server_fd, *m_c2sParser, ec)`, it reads only from the
client, writes only to the server and leaves the s2c parser alone; for every other
reported handle it is `Transfer(m_server_fd, client_fd, *m_s2cParser, ec)`, it reads
only from the server, writes only to the client and leaves the c2s parser alone. In
both cases no handle is both read and written. -/
theorem RunOne_dispatch {σ π : Type} (os : Sys σ) (P : IParser π) (codes : Error → Int)
    (this : ProxySession π) (epoll_fd client_fd : Fd) (ec : error_code) (w : σ)
    (hnum : 0 ≤ (os.epoll_wait w epoll_fd).1.num)
    (hin : (os.epoll_wait w epoll_fd).1.event.events &&& EPOLLIN ≠ 0)
    (hne : client_fd ≠ this.m_server_fd) :
    ∃ r, RunOne os P codes this epoll_fd client_fd ec w = some r ∧
      ((os.epoll_wait w epoll_fd).1.event.fd = client_fd →
        (∃ t, Transfer os P codes this client_fd this.m_server_fd this.m_c2sParser ec
              (os.epoll_wait w epoll_fd).2 = some t ∧
            r.ret = t.ret ∧ r.ec = t.ec ∧ r.session.m_c2sParser = t.parser ∧
            r.session.m_output_vec = t.m_output_vec ∧ r.sys = t.sys ∧
            r.calls = Call.epoll_wait (os.epoll_wait w epoll_fd).1.num :: t.calls) ∧
        r.session.m_s2cParser = this.m_s2cParser ∧
        (∀ fd n k, Call.read fd n k ∈ r.calls → fd = client_fd) ∧
        (∀ fd s k, Call.write fd s k ∈ r.calls → fd = this.m_server_fd)) ∧
      ((os.epoll_wait w epoll_fd).1.event.fd ≠ client_fd →
        (∃ t, Transfer os P codes this this.m_server_fd client_fd this.m_s2cParser ec
              (os.epoll_wait w epoll_fd).2 = some t ∧
            r.ret = t.ret ∧ r.ec = t.ec ∧ r.session.m_s2cParser = t.parser ∧
            r.session.m_output_vec = t.m_output_vec ∧ r.sys = t.sys ∧
            r.calls = Call.epoll_wait (os.epoll_wait w epoll_fd).1.num :: t.calls) ∧
        r.session.m_c2sParser = this.m_c2sParser ∧
        (∀ fd n k, Call.read fd n k ∈ r.calls → fd = this.m_server_fd) ∧
        (∀ fd s k, Call.write fd s k ∈ r.calls → fd = client_fd)) ∧
      (∀ fd n k fd2 s j, Call.read fd n k ∈ r.calls → Call.write fd2 s j ∈ r.calls →
        fd ≠ fd2) := by
  by_cases hfd : (os.epoll_wait w epoll_fd).1.event.fd = client_fd
  · obtain ⟨t, ht, hrd, hwr⟩ := Transfer_total os P codes this client_fd this.m_server_fd
      this.m_c2sParser ec (os.epoll_wait w epoll_fd).2
    have hR := RunOne_of_client os P codes this epoll_fd client_fd ec w hnum hin hfd
    rw [ht] at hR
    have hrd1 : ∀ fd n k, Call.read fd n k ∈
        Call.epoll_wait (os.epoll_wait w epoll_fd).1.num :: t.calls → fd = client_fd := by
      intro fd n k hmem
      simp at hmem
      exact hrd fd n k hmem
    have hwr1 : ∀ fd s k, Call.write fd s k ∈
        Call.epoll_wait (os.epoll_wait w epoll_fd).1.num :: t.calls →
          fd = this.m_server_fd := by
      intro fd s k hmem
      simp at hmem
      exact hwr fd s k hmem
    refine ⟨_, hR, fun _ => ⟨⟨t, ht, rfl, rfl, rfl, rfl, rfl, rfl⟩, rfl, hrd1, hwr1⟩,
      fun h => absurd hfd h, ?_⟩
    intro fd n k fd2 s j h1 h2
    rw [hrd1 fd n k h1, hwr1 fd2 s j h2]
    exact hne
  · obtain ⟨t, ht, hrd, hwr⟩ := Transfer_total os P codes this this.m_server_fd client_fd
      this.m_s2cParser ec (os.epoll_wait w epoll_fd).2
    have hR := RunOne_of_other os P codes this epoll_fd client_fd ec w hnum hin hfd
    rw [ht] at hR
    have hrd1 : ∀ fd n k, Call.read fd n k ∈
        Call.epoll_wait (os.epoll_wait w epoll_fd).1.num :: t.calls →
          fd = this.m_server_fd := by
      intro fd n k hmem
      simp at hmem
      exact hrd fd n k hmem
    have hwr1 : ∀ fd s k, Call.write fd s k ∈
        Call.epoll_wait (os.epoll_wait w epoll_fd).1.num :: t.calls → fd = client_fd := by
      intro fd s k hmem
      simp at hmem
      exact hwr fd s k hmem
    refine ⟨_, hR, fun h => absurd h hfd,
      fun _ => ⟨⟨t, ht, rfl, rfl, rfl, rfl, rfl, rfl⟩, rfl, hrd1, hwr1⟩, ?_⟩
    intro fd n k fd2 s j h1 h2
    rw [hrd1 fd n k h1, hwr1 fd2 s j h2]
    exact fun h => hne h.symm

/-- A drain of a queue that holds at least one byte issues at least one write. -/
theorem drain_writes_of_bytes {σ : Type} (os : Sys σ) (dest : Fd) (q : List RSlice) :
    ∀ (w : σ) (d : DrainResult σ), drain os dest w q = some d → 0 < queuedBytes q →
      d.calls ≠ [] := by
  induction q with
  | nil =>
      intro w d _ hpos
      simp [queuedBytes] at hpos
  | cons slice tail ih =>
      intro w d h hpos
      cases hl : writeAll os dest slice.Size w slice with
      | none => simp [drain, hl] at h
      | some l =>
          have hhead := (writeAll_resume os dest _ _ _ _ hl).1
          cases hb : slice.IsEmpty with
          | false =>
              obtain ⟨k, hk⟩ := hhead hb
              have hne : l.calls ≠ [] := by
                intro h0
                rw [h0] at hk
                simp at hk
              cases hf : l.failed with
              | some e =>
                  simp [drain, hl, hf] at h
                  subst h
                  exact hne
              | none =>
                  cases hd : drain os dest l.sys tail with
                  | none => simp [drain, hl, hf, hd] at h
                  | some d1 =>
                      simp [drain, hl, hf, hd] at h
                      subst h
                      simp [hne]
          | true =>
              have hsz : slice.Size = 0 := (RSlice.isEmpty_iff slice).1 hb
              have hl0 : writeAll os dest 0 w slice = some l := by rw [← hsz]; exact hl
              simp [writeAll, hb] at hl0
              subst hl0
              have hpos1 : 0 < queuedBytes tail := by
                simp [queuedBytes, hsz] at hpos
                simpa [queuedBytes] using hpos
              cases hd : drain os dest w tail with
              | none => simp [drain, hl, hd] at h
              | some d1 =>
                  simp [drain, hl, hd] at h
                  subst h
                  exact ih _ _ hd hpos1

/-- C8. For a read that returns a positive count, the drain is performed after
`Parse` whatever flag `Parse` returned. Two parsers with the same input buffer that
queue the same slices make `Transfer` issue the read, then `Parse`, then the same
writes `ws`, all on the destination and at least one when a byte is queued; the
queue and the world are left the same. When every write accepted a positive count,
the destination accepted every queued byte in queue order and the queue is empty for
both parsers, and `Transfer` returns the flag of its parser. -/
theorem Transfer_drains_whatever_Parse_returns {σ π ρ : Type} (os : Sys σ) (P : IParser π)
    (Q : IParser ρ) (codes : Error → Int) (this1 : ProxySession π) (this2 : ProxySession ρ)
    (src dest : Fd) (p : π) (q : ρ) (ec : error_code) (w : σ)
    (hbuf : Transfer_inBuff P p = Transfer_inBuff Q q)
    (hvec : this1.m_output_vec = this2.m_output_vec)
    (hn : 0 < (Transfer_read os P src p w).1.ret)
    (hqueued : (Transfer_Parse os P src p w).queued = (Transfer_Parse os Q src q w).queued) :
    ∃ r1 r2 ws, Transfer os P codes this1 src dest p ec w = some r1 ∧
      Transfer os Q codes this2 src dest q ec w = some r2 ∧
      r1.calls = Call.read src (Transfer_inBuff P p).Size (Transfer_read os P src p w).1.ret ::
        Call.parse (Transfer_readyBytes os P src p w) (Transfer_Parse os P src p w).SUCCESS ::
          ws ∧
      r2.calls = Call.read src (Transfer_inBuff Q q).Size (Transfer_read os Q src q w).1.ret ::
        Call.parse (Transfer_readyBytes os Q src q w) (Transfer_Parse os Q src q w).SUCCESS ::
          ws ∧
      (∀ c ∈ ws, ∃ s k, c = Call.write dest s k) ∧
      (0 < queuedBytes (this2.m_output_vec ++ (Transfer_Parse os Q src q w).queued) →
        ws ≠ []) ∧
      r1.calls.filter Call.isWrite = r2.calls.filter Call.isWrite ∧
      r1.m_output_vec = r2.m_output_vec ∧ r1.sys = r2.sys ∧
      ((∀ fd s k, Call.write fd s k ∈ r1.calls → 0 < k) →
        r1.ret = (Transfer_Parse os P src p w).SUCCESS ∧
        r2.ret = (Transfer_Parse os Q src q w).SUCCESS ∧
        delivered dest r1.calls
          = queueContent (this1.m_output_vec ++ (Transfer_Parse os P src p w).queued) ∧
        delivered dest r2.calls
          = queueContent (this2.m_output_vec ++ (Transfer_Parse os Q src q w).queued) ∧
        r1.m_output_vec = [] ∧ r2.m_output_vec = []) := by
  have hread : Transfer_read os Q src q w = Transfer_read os P src p w := by
    simp [Transfer_read, hbuf]
  have hn2 : 0 < (Transfer_read os Q src q w).1.ret := by rw [hread]; exact hn
  obtain ⟨d, hd, hT⟩ := Transfer_of_read_pos os P codes this1 src dest p ec w hn
  obtain ⟨d2, hd2, hT2⟩ := Transfer_of_read_pos os Q codes this2 src dest q ec w hn2
  have hd2q := hd2
  rw [hread, ← hvec, ← hqueued, hd] at hd2
  cases hd2
  obtain ⟨hc, _, hall, hok, _⟩ := drain_spec os dest _ _ _ hd
  refine ⟨_, _, d.calls, hT, hT2, rfl, rfl, hc, ?_, ?_, rfl, rfl, ?_⟩
  · intro hpos
    exact drain_writes_of_bytes os dest _ _ _ hd2q hpos
  · simp [Call.isWrite]
  · intro hw
    have hnone : d.failed = none := by
      rw [hall]
      intro fd s k hmem
      exact hw fd s k (by simp [hmem])
    obtain ⟨hempty, hdel⟩ := hok hnone
    refine ⟨by simp [hnone], by simp [hnone], ?_, ?_, hempty, hempty⟩
    · simp only [delivered_read_parse, hdel]
    · simp only [delivered_read_parse, hdel, hvec, hqueued]

/-- C6. Whenever the enumerator `Error::END_OF_FILE` is not zero: a `Transfer` whose
read returns zero issues no call but that read (`Parse` is not invoked, nothing is
written), returns false, leaves the queue and the parser as they were and records
`Error::END_OF_FILE`, which is set and is no `std::error_code(errno, system_category())`
(what a negative read records); and when that happens in an iteration of the loop of
`Run`, the loop is left right after this iteration. -/
theorem zero_read_ends_session {σ π : Type} (os : Sys σ) (P : IParser π)
    (codes : Error → Int) (hcode : codes Error.END_OF_FILE ≠ 0) :
    (∀ (this : ProxySession π) (src dest : Fd) (parser : π) (ec : error_code) (w : σ),
      (Transfer_read os P src parser w).1.ret = 0 →
      ∃ r, Transfer os P codes this src dest parser ec w = some r ∧
        r.ret = false ∧
        r.ec = make_error_code codes Error.END_OF_FILE ∧ r.ec.isSet = true ∧
        (∀ e, r.ec ≠ system_error e) ∧
        r.calls = [Call.read src (Transfer_inBuff P parser).Size 0] ∧
        (∀ fd, delivered fd r.calls = []) ∧
        r.parser = (P.GetWriteSlice parser).2 ∧
        r.m_output_vec = this.m_output_vec) ∧
    (∀ (this : ProxySession π) (src dest : Fd) (parser : π) (ec : error_code) (w : σ),
      (Transfer_read os P src parser w).1.ret < 0 →
      ∃ r, Transfer os P codes this src dest parser ec w = some r ∧
        r.ec = system_error (Transfer_read os P src parser w).1.errno) ∧
    (∀ (s : RunState σ π) (epoll_fd client_fd : Fd), s.ec.isSet = false →
      ∃ r, RunOne os P codes s.session epoll_fd client_fd s.ec s.sys = some r ∧
        ((∃ fd n, Call.read fd n 0 ∈ r.calls) →
          r.ret = false ∧ r.ec = make_error_code codes Error.END_OF_FILE ∧
          (∀ c ∈ r.calls, ∀ b f, c ≠ Call.parse b f) ∧
          (∀ c ∈ r.calls, c.isWrite = false) ∧
          ∀ n, Run_loop os P codes epoll_fd client_fd (n + 1) s =
            some ⟨r.session, r.ec, r.sys, s.calls ++ r.calls⟩)) := by
  have hset : (make_error_code codes Error.END_OF_FILE).isSet = true := by
    simp [make_error_code, error_code.isSet, hcode]
  have hzero : ∀ (this : ProxySession π) (src dest : Fd) (parser : π) (ec : error_code)
      (w : σ), (Transfer_read os P src parser w).1.ret = 0 →
      Transfer os P codes this src dest parser ec w =
        some ⟨false, make_error_code codes Error.END_OF_FILE, (P.GetWriteSlice parser).2,
          this.m_output_vec, (Transfer_read os P src parser w).2,
          [Call.read src (Transfer_inBuff P parser).Size 0]⟩ := by
    intro this src dest parser ec w h0
    rw [Transfer_of_read_nonpos os P codes this src dest parser ec w (by omega)]
    simp [h0]
  refine ⟨?_, ?_, ?_⟩
  · intro this src dest parser ec w h0
    refine ⟨_, hzero this src dest parser ec w h0, rfl, rfl, hset, ?_, rfl, ?_, rfl, rfl⟩
    · intro e h
      simp [make_error_code, system_error] at h
    · intro fd
      simp [delivered]
  · intro this src dest parser ec w hneg
    refine ⟨_, Transfer_of_read_nonpos os P codes this src dest parser ec w (by omega), ?_⟩
    simp [hneg]
  · intro s epoll_fd client_fd hec
    obtain ⟨r, hr, _⟩ := RunOne_total os P codes s.session epoll_fd client_fd s.ec s.sys
    refine ⟨r, hr, ?_⟩
    rintro ⟨fd, n, hmem⟩
    have key : ∀ (src dest : Fd) (parser : π) (f : TransferResult σ π → RunOneResult σ π),
        (∀ t, (f t).ret = t.ret ∧ (f t).ec = t.ec ∧
          (f t).calls = Call.epoll_wait (os.epoll_wait s.sys epoll_fd).1.num :: t.calls) →
        RunOne os P codes s.session epoll_fd client_fd s.ec s.sys =
          (Transfer os P codes s.session src dest parser s.ec
            (os.epoll_wait s.sys epoll_fd).2).map f →
        r.ret = false ∧ r.ec = make_error_code codes Error.END_OF_FILE ∧
          (∀ c ∈ r.calls, ∀ b f, c ≠ Call.parse b f) ∧
          (∀ c ∈ r.calls, c.isWrite = false) := by
      intro src dest parser f hf hR
      obtain ⟨t, ht, _⟩ := Transfer_total os P codes s.session src dest parser s.ec
        (os.epoll_wait s.sys epoll_fd).2
      rw [hr, ht] at hR
      simp at hR
      subst hR
      obtain ⟨h1, h2, h3⟩ := hf t
      rw [h3] at hmem
      have h0 := Transfer_read_zero_of_mem os P codes s.session src dest parser s.ec
        (os.epoll_wait s.sys epoll_fd).2 t ht ⟨fd, n, by simpa using hmem⟩
      have hz := hzero s.session src dest parser s.ec (os.epoll_wait s.sys epoll_fd).2 h0
      rw [ht] at hz
      cases hz
      rw [h1, h2, h3]
      refine ⟨rfl, rfl, ?_, ?_⟩
      · intro c hc b f
        simp at hc
        rcases hc with rfl | rfl <;> simp
      · intro c hc
        simp at hc
        rcases hc with rfl | rfl <;> rfl
    have hres : r.ret = false ∧ r.ec = make_error_code codes Error.END_OF_FILE ∧
          (∀ c ∈ r.calls, ∀ b f, c ≠ Call.parse b f) ∧
          (∀ c ∈ r.calls, c.isWrite = false) := by
      by_cases h1 : (os.epoll_wait s.sys epoll_fd).1.num < 0
      · simp [RunOne, h1] at hr
        subst hr
        simp at hmem
      · by_cases hin : (os.epoll_wait s.sys epoll_fd).1.event.events &&& EPOLLIN ≠ 0
        · by_cases hfd : (os.epoll_wait s.sys epoll_fd).1.event.fd = client_fd
          · exact key _ _ _ _ (fun t => ⟨rfl, rfl, rfl⟩)
              (RunOne_of_client os P codes s.session epoll_fd client_fd s.ec s.sys
                (by omega) hin hfd)
          · exact key _ _ _ _ (fun t => ⟨rfl, rfl, rfl⟩)
              (RunOne_of_other os P codes s.session epoll_fd client_fd s.ec s.sys
                (by omega) hin hfd)
        · simp [RunOne, h1, hin] at hr
          subst hr
          simp at hmem
    obtain ⟨hret, hecr, hp, hw⟩ := hres
    refine ⟨hret, hecr, hp, hw, ?_⟩
    intro n
    rw [Run_loop_step os P codes epoll_fd client_fd n s r hec hr]
    exact Run_loop_exit os P codes epoll_fd client_fd n _ (by simp only [hecr, hset])

/-- C9. Pass-through end to end. For a parser whose `Parse` queues exactly the slice
it is given and returns success, a session with `ec` clear and nothing queued, and a
readable event on the client handle whose read returns the non-empty bytes `B`, no
longer than the write slice: `RunOne` returns; `Parse` is called on exactly the first
`len(B)` bytes of the write slice, which are `B`; and if every write accepted a
positive count, the server handle accepted exactly `B`, nothing was written
elsewhere, `Transfer` returned true, `ec` is untouched and clear, the queue is empty,
and the loop of `Run` goes on: its next iteration runs `RunOne`, which starts with
the next `epoll_wait`. -/
theorem passthrough_end_to_end {σ π : Type} (os : Sys σ) (P : IParser π)
    (codes : Error → Int) (s : RunState σ π) (epoll_fd client_fd : Fd) (B : List Byte)
    (hP : ∀ p b, (P.Parse p b).SUCCESS = true ∧ (P.Parse p b).queued = [b])
    (hec : s.ec.isSet = false)
    (hq : s.session.m_output_vec = [])
    (hnum : 0 ≤ (os.epoll_wait s.sys epoll_fd).1.num)
    (hin : (os.epoll_wait s.sys epoll_fd).1.event.events &&& EPOLLIN ≠ 0)
    (hfd : (os.epoll_wait s.sys epoll_fd).1.event.fd = client_fd)
    (hB : B ≠ [])
    (hret : (Transfer_read os P client_fd s.session.m_c2sParser
              (os.epoll_wait s.sys epoll_fd).2).1.ret = B.length)
    (hdata : (Transfer_read os P client_fd s.session.m_c2sParser
              (os.epoll_wait s.sys epoll_fd).2).1.data = B)
    (hcap : B.length ≤ (Transfer_inBuff P s.session.m_c2sParser).Size) :
    ∃ r, RunOne os P codes s.session epoll_fd client_fd s.ec s.sys = some r ∧
      r.calls[1]? = some (Call.read client_fd (Transfer_inBuff P s.session.m_c2sParser).Size
        B.length) ∧
      r.calls[2]? = some (Call.parse
        ((((Transfer_inBuff P s.session.m_c2sParser).store B).ToRSlice).Take B.length) true) ∧
      ((((Transfer_inBuff P s.session.m_c2sParser).store B).ToRSlice).Take B.length).bytes = B ∧
      ((∀ fd b k, Call.write fd b k ∈ r.calls → 0 < k) →
        delivered s.session.m_server_fd r.calls = B ∧
        (∀ fd b k, Call.write fd b k ∈ r.calls → fd = s.session.m_server_fd) ∧
        r.ret = true ∧ r.ec = s.ec ∧ r.ec.isSet = false ∧ r.session.m_output_vec = [] ∧
        (∀ n, Run_loop os P codes epoll_fd client_fd (n + 1) s =
          Run_loop os P codes epoll_fd client_fd n
            ⟨r.session, r.ec, r.sys, s.calls ++ r.calls⟩) ∧
        ∃ r2, RunOne os P codes r.session epoll_fd client_fd r.ec r.sys = some r2 ∧
          r2.calls[0]? = some (Call.epoll_wait (os.epoll_wait r.sys epoll_fd).1.num) ∧
          ∀ n, Run_loop os P codes epoll_fd client_fd (n + 2) s =
            Run_loop os P codes epoll_fd client_fd n
              ⟨r2.session, r2.ec, r2.sys, (s.calls ++ r.calls) ++ r2.calls⟩) := by
  have hBlen : 0 < B.length := List.length_pos.2 hB
  have hn : 0 < (Transfer_read os P client_fd s.session.m_c2sParser
      (os.epoll_wait s.sys epoll_fd).2).1.ret := by
    rw [hret]
    exact_mod_cast hBlen
  have hready : Transfer_readyBytes os P client_fd s.session.m_c2sParser
      (os.epoll_wait s.sys epoll_fd).2 = ⟨B⟩ := by
    unfold Transfer_readyBytes
    rw [hret, hdata]
    simpa using readyBytes_eq _ B hcap
  have hflag : (Transfer_Parse os P client_fd s.session.m_c2sParser
      (os.epoll_wait s.sys epoll_fd).2).SUCCESS = true := (hP _ _).1
  have hqueued : (Transfer_Parse os P client_fd s.session.m_c2sParser
      (os.epoll_wait s.sys epoll_fd).2).queued = [⟨B⟩] := by
    unfold Transfer_Parse
    rw [(hP _ _).2, hready]
  obtain ⟨d, hd, hT⟩ := Transfer_of_read_pos os P codes s.session client_fd
    s.session.m_server_fd s.session.m_c2sParser s.ec (os.epoll_wait s.sys epoll_fd).2 hn
  obtain ⟨hc, _, hall, hok, _⟩ := drain_spec os s.session.m_server_fd _ _ _ hd
  have hR := RunOne_of_client os P codes s.session epoll_fd client_fd s.ec s.sys hnum hin hfd
  rw [hT] at hR
  simp only [Option.map_some'] at hR
  refine ⟨_, hR, ?_, ?_, ?_, ?_⟩
  · simp [hret]
  · simp [hready, hflag, readyBytes_eq _ B hcap]
  · rw [readyBytes_eq _ B hcap]
  · intro hw
    have hnone : d.failed = none := by
      rw [hall]
      intro fd b k hmem
      exact hw fd b k (by simp [hmem])
    obtain ⟨hempty, hdel⟩ := hok hnone
    have hecr : (match d.failed with
        | some errno => system_error errno
        | none => s.ec) = s.ec := by rw [hnone]
    refine ⟨?_, ?_, ?_, hecr, ?_, hempty, ?_, ?_⟩
    · simp only [delivered, delivered_read_parse, hdel]
      simp [queueContent, hq, hqueued]
    · intro fd b k hmem
      simp at hmem
      obtain ⟨s1, k1, h1⟩ := hc _ hmem
      cases h1
      rfl
    · simp [hnone, hflag]
    · simp only [hecr, hec]
    · intro n
      exact Run_loop_step os P codes epoll_fd client_fd n s _ hec hR
    · obtain ⟨r2, hr2, hhead⟩ := RunOne_total os P codes
        ⟨s.session.m_server_fd, s.session.m_s2cParser,
          (Transfer_Parse os P client_fd s.session.m_c2sParser
            (os.epoll_wait s.sys epoll_fd).2).parser, d.m_output_vec⟩
        epoll_fd client_fd s.ec d.sys
      refine ⟨r2, by simpa only [hecr] using hr2, hhead, ?_⟩
      intro n
      rw [Run_loop_step os P codes epoll_fd client_fd (n + 1) s _ hec hR]
      exact Run_loop_step os P codes epoll_fd client_fd n _ _ (by simp only [hecr, hec])
        (by simpa only [hecr] using hr2)

/-- C3, evaluated where the code departs from the claim. The first event is a read of
five bytes on which `Parse` queues them and returns failure: the bytes are written
to the server, `RunOne` returns false and `ec` stays clear, so the loop of `Run`
issues a second `epoll_wait` and a second `read`; it is left only when that read
reports the end of the stream. -/
theorem Run_continues_after_Parse_failure :
    (RunOne scripted faultyParser exampleCodes session4 6 5 (system_error 0)
        ⟨[readable 5, readable 5], [⟨5, 0, PING⟩], [⟨5, 0⟩]⟩).map
          (fun r => (r.ret, r.ec.isSet, r.calls))
      = some (false, false,
          [Call.epoll_wait 1, Call.read 5 8 5, Call.parse ⟨PING⟩ false,
            Call.write 4 ⟨PING⟩ 5]) ∧
    (Run_loop scripted faultyParser exampleCodes 6 5 1
        ⟨session4, system_error 0, ⟨[readable 5, readable 5], [⟨5, 0, PING⟩], [⟨5, 0⟩]⟩,
          []⟩).isSome = false ∧
    (Run_loop scripted faultyParser exampleCodes 6 5 2
        ⟨session4, system_error 0, ⟨[readable 5, readable 5], [⟨5, 0, PING⟩], [⟨5, 0⟩]⟩,
          []⟩).map (fun s => (s.ec, s.calls))
      = some (make_error_code exampleCodes Error.END_OF_FILE,
          [Call.epoll_wait 1, Call.read 5 8 5, Call.parse ⟨PING⟩ false,
            Call.write 4 ⟨PING⟩ 5, Call.epoll_wait 1, Call.read 5 8 0]) := by
  refine ⟨?_, ?_, ?_⟩ <;> decide

/-- C4, evaluated where the code departs from the claim. The write of the five bytes
read returns zero with `errno` zero: no further write is issued and `RunOne` returns
false, but the `ec` built from `errno` is clear, so the loop of `Run` issues a second
`epoll_wait` and a second `read`. -/
theorem Run_continues_after_write_zero :
    (RunOne scripted passthroughParser exampleCodes session4 6 5 (system_error 0)
        ⟨[readable 5, readable 5], [⟨5, 0, PING⟩], [⟨0, 0⟩, ⟨5, 0⟩]⟩).map
          (fun r => (r.ret, r.ec, r.ec.isSet, r.calls))
      = some (false, system_error 0, false,
          [Call.epoll_wait 1, Call.read 5 8 5, Call.parse ⟨PING⟩ true,
            Call.write 4 ⟨PING⟩ 0]) ∧
    (Run_loop scripted passthroughParser exampleCodes 6 5 1
        ⟨session4, system_error 0,
          ⟨[readable 5, readable 5], [⟨5, 0, PING⟩], [⟨0, 0⟩, ⟨5, 0⟩]⟩, []⟩).isSome = false ∧
    (Run_loop scripted passthroughParser exampleCodes 6 5 2
        ⟨session4, system_error 0,
          ⟨[readable 5, readable 5], [⟨5, 0, PING⟩], [⟨0, 0⟩, ⟨5, 0⟩]⟩, []⟩).map
          (fun s => (s.ec, s.calls))
      = some (make_error_code exampleCodes Error.END_OF_FILE,
          [Call.epoll_wait 1, Call.read 5 8 5, Call.parse ⟨PING⟩ true,
            Call.write 4 ⟨PING⟩ 0, Call.epoll_wait 1, Call.read 5 8 0]) := by
  refine ⟨?_, ?_, ?_⟩ <;> decide

/-- C2 on an explicit input: the first write accepts two of five bytes, the next one
offers the remaining three. -/
theorem Transfer_resumes_partial_writes_witness :
    ∃ r, Transfer scripted passthroughParser exampleCodes session4 5 4 () (system_error 0)
          ⟨[], [⟨5, 0, PING⟩], [⟨2, 0⟩, ⟨3, 0⟩]⟩ = some r ∧
      r.calls[2]? = some (Call.write 4 ⟨PING⟩ 2) ∧
      ∃ j, r.calls[3]? = some (Call.write 4 ⟨[78, 71, 10]⟩ j) := by
  obtain ⟨⟨r, hr, h⟩, _⟩ := Transfer_resumes_partial_writes scripted passthroughParser
    exampleCodes session4 5 4 () (system_error 0) ⟨[], [⟨5, 0, PING⟩], [⟨2, 0⟩, ⟨3, 0⟩]⟩
  have hcalls : r.calls[2]? = some (Call.write 4 ⟨PING⟩ 2) := by
    have he : (Transfer scripted passthroughParser exampleCodes session4 5 4 ()
          (system_error 0) ⟨[], [⟨5, 0, PING⟩], [⟨2, 0⟩, ⟨3, 0⟩]⟩).map (fun r => r.calls[2]?) =
        some (some (Call.write 4 ⟨PING⟩ 2)) := by
      decide
    rw [hr] at he
    simpa using he
  obtain ⟨j, hj, _⟩ := h 2 4 ⟨PING⟩ 2 hcalls (by decide) (by decide)
  exact ⟨r, hr, hcalls, j, hj⟩

/-- C6 on an explicit input: the server handle is readable and its read returns
zero. -/
theorem zero_read_ends_session_witness :
    exampleCodes Error.END_OF_FILE ≠ 0 ∧
    ∃ r, RunOne scripted passthroughParser exampleCodes session4 6 5 (system_error 0)
          ⟨[readable 4], [⟨0, 0, []⟩], []⟩ = some r ∧
      r.ret = false ∧ r.ec = make_error_code exampleCodes Error.END_OF_FILE ∧
      Run_loop scripted passthroughParser exampleCodes 6 5 1
          ⟨session4, system_error 0, ⟨[readable 4], [⟨0, 0, []⟩], []⟩, []⟩
        = some ⟨r.session, r.ec, r.sys, [] ++ r.calls⟩ := by
  refine ⟨by decide, ?_⟩
  obtain ⟨_, _, hrun⟩ := zero_read_ends_session scripted passthroughParser exampleCodes
    (by decide)
  obtain ⟨r, hr, h⟩ := hrun ⟨session4, system_error 0, ⟨[readable 4], [⟨0, 0, []⟩], []⟩, []⟩
    6 5 (by decide)
  have hmem : Call.read 4 8 0 ∈ r.calls := by
    have he : (RunOne scripted passthroughParser exampleCodes session4 6 5 (system_error 0)
          ⟨[readable 4], [⟨0, 0, []⟩], []⟩).map (fun r => r.calls) =
        some [Call.epoll_wait 1, Call.read 4 8 0] := by
      decide
    have hr1 : RunOne scripted passthroughParser exampleCodes session4 6 5 (system_error 0)
          ⟨[readable 4], [⟨0, 0, []⟩], []⟩ = some r := hr
    rw [hr1] at he
    simp at he
    rw [he]
    simp
  obtain ⟨h1, h2, _, _, h5⟩ := h ⟨4, 8, hmem⟩
  exact ⟨r, hr, h1, h2, h5 0⟩

/-- C7 on an explicit input: the handle reported is neither the client (5) nor the
server (4); the transfer goes from the server to the client. -/
theorem RunOne_dispatch_witness :
    ∃ r, RunOne scripted passthroughParser exampleCodes session4 6 5 (system_error 0)
          ⟨[readable 9], [⟨5, 0, PING⟩], [⟨5, 0⟩]⟩ = some r ∧
      (∀ fd n k, Call.read fd n k ∈ r.calls → fd = 4) ∧
      (∀ fd s k, Call.write fd s k ∈ r.calls → fd = 5) := by
  obtain ⟨r, hr, _, h2, _⟩ := RunOne_dispatch scripted passthroughParser exampleCodes session4
    6 5 (system_error 0) ⟨[readable 9], [⟨5, 0, PING⟩], [⟨5, 0⟩]⟩
    (by decide) (by decide) (by decide)
  obtain ⟨_, _, hrd, hwr⟩ := h2 (by decide)
  exact ⟨r, hr, hrd, hwr⟩

/-- C8 on an explicit input: the pass-through parser and the fault-injecting parser;
the five bytes reach the server also when `Parse` returns failure. -/
theorem Transfer_drains_whatever_Parse_returns_witness :
    ∃ r1 r2, Transfer scripted passthroughParser exampleCodes session4 5 4 () (system_error 0)
          ⟨[], [⟨5, 0, PING⟩], [⟨2, 0⟩, ⟨3, 0⟩]⟩ = some r1 ∧
      Transfer scripted faultyParser exampleCodes session4 5 4 () (system_error 0)
          ⟨[], [⟨5, 0, PING⟩], [⟨2, 0⟩, ⟨3, 0⟩]⟩ = some r2 ∧
      r1.calls.filter Call.isWrite = r2.calls.filter Call.isWrite ∧
      r1.ret = true ∧ r2.ret = false ∧
      delivered 4 r2.calls = PING ∧ r2.m_output_vec = [] ∧
      r2.calls.filter Call.isWrite ≠ [] := by
  obtain ⟨r1, r2, ws, h1, h2, _, hc2, hwr, hne, hcalls, _, _, h⟩ :=
    Transfer_drains_whatever_Parse_returns scripted
    passthroughParser faultyParser exampleCodes session4 session4 5 4 () () (system_error 0)
    ⟨[], [⟨5, 0, PING⟩], [⟨2, 0⟩, ⟨3, 0⟩]⟩ (by decide) (by rfl) (by decide) (by decide)
  have hw : ∀ fd s k, Call.write fd s k ∈ r1.calls → 0 < k := by
    have he : (Transfer scripted passthroughParser exampleCodes session4 5 4 ()
          (system_error 0) ⟨[], [⟨5, 0, PING⟩], [⟨2, 0⟩, ⟨3, 0⟩]⟩).map (fun r => r.calls) =
        some [Call.read 5 8 5, Call.parse ⟨PING⟩ true, Call.write 4 ⟨PING⟩ 2,
          Call.write 4 ⟨[78, 71, 10]⟩ 3] := by
      decide
    rw [h1] at he
    simp at he
    intro fd s k hmem
    rw [he] at hmem
    simp at hmem
    rcases hmem with ⟨_, _, rfl⟩ | ⟨_, _, rfl⟩ <;> decide
  obtain ⟨hr1, hr2, _, hdel2, _, hq2⟩ := h hw
  have hws : ws ≠ [] := hne (by decide)
  refine ⟨r1, r2, h1, h2, hcalls, by rw [hr1]; decide, by rw [hr2]; decide, ?_, hq2, ?_⟩
  · rw [hdel2]
    decide
  · rw [hc2]
    cases ws with
    | nil => exact absurd rfl hws
    | cons c t =>
        obtain ⟨s, k, rfl⟩ := hwr c (List.mem_cons_self _ _)
        simp [Call.isWrite]

/-- C9 on an explicit input: the client sends the five bytes of `PING`, the server
accepts them in two writes. -/
theorem passthrough_end_to_end_witness :
    ∃ r, RunOne scripted passthroughParser exampleCodes session4 6 5 (system_error 0)
          ⟨[readable 5], [⟨5, 0, PING⟩], [⟨2, 0⟩, ⟨3, 0⟩]⟩ = some r ∧
      r.calls[2]? = some (Call.parse ⟨PING⟩ true) ∧
      delivered 4 r.calls = PING ∧ r.ret = true ∧ r.ec.isSet = false := by
  obtain ⟨r, hr, _, hparse, _, h⟩ := passthrough_end_to_end scripted passthroughParser
    exampleCodes ⟨session4, system_error 0, ⟨[readable 5], [⟨5, 0, PING⟩], [⟨2, 0⟩, ⟨3, 0⟩]⟩, []⟩
    6 5 PING (fun _ _ => ⟨rfl, rfl⟩) (by decide) (by rfl) (by decide) (by decide) (by decide)
    (by decide) (by decide) (by decide) (by decide)
  have hr1 : RunOne scripted passthroughParser exampleCodes session4 6 5 (system_error 0)
      ⟨[readable 5], [⟨5, 0, PING⟩], [⟨2, 0⟩, ⟨3, 0⟩]⟩ = some r := hr
  have hw : ∀ fd b k, Call.write fd b k ∈ r.calls → 0 < k := by
    have he : (RunOne scripted passthroughParser exampleCodes session4 6 5 (system_error 0)
          ⟨[readable 5], [⟨5, 0, PING⟩], [⟨2, 0⟩, ⟨3, 0⟩]⟩).map (fun r => r.calls) =
        some [Call.epoll_wait 1, Call.read 5 8 5, Call.parse ⟨PING⟩ true,
          Call.write 4 ⟨PING⟩ 2, Call.write 4 ⟨[78, 71, 10]⟩ 3] := by
      decide
    rw [hr1] at he
    simp at he
    intro fd b k hmem
    rw [he] at hmem
    simp at hmem
    rcases hmem with ⟨_, _, rfl⟩ | ⟨_, _, rfl⟩ <;> decide
  obtain ⟨hdel, _, hret, _, hclear, _⟩ := h hw
  exact ⟨r, hr1, hparse, hdel, hret, hclear⟩

/-- C10 on an explicit input: five bytes accepted one at a time. -/
theorem Transfer_drain_terminates_witness :
    ∃ r, Transfer scripted splitParser exampleCodes session4 5 4 () (system_error 0)
          ⟨[], [⟨5, 0, PING⟩], [⟨1, 0⟩, ⟨1, 0⟩, ⟨1, 0⟩, ⟨1, 0⟩, ⟨1, 0⟩]⟩ = some r ∧
      writeCount r.calls ≤ 5 + 1 := by
  obtain ⟨_, _, r, hr, _, h⟩ := Transfer_drain_terminates scripted splitParser exampleCodes
    session4 5 4 () (system_error 0)
    ⟨[], [⟨5, 0, PING⟩], [⟨1, 0⟩, ⟨1, 0⟩, ⟨1, 0⟩, ⟨1, 0⟩, ⟨1, 0⟩]⟩
  exact ⟨r, hr, h⟩

end proxy
